import Mathlib

/-!
Shallow embedding of `src/specifications/Tool/interpolate_missing_values.py`
(the gap-filling resampler of the DataUtilitiesPlugin repository) and proofs
about it.

Modelling conventions:
* Timestamps and values are rationals (`ℚ`): timestamps stand for a count of
  a fixed time unit (e.g. minutes since an epoch), which models numpy
  datetime64 arithmetic on an idealised (exact) numeric time base; values
  model the float payload exactly.
* `numpy.rint` (round half to even) is embedded as `rint` below.
* `scipy.interpolate.interp1d` is only ever called on two sample points
  `(t0, v0), (t1, v1)`; `interp1d` below embeds its behaviour on two points
  for the four kinds used by the tool (`previous`, `next`, `nearest`,
  `linear`).  The `nearest` kind uses `searchsorted(x_bds, t, side = left)`
  on the midpoint boundary `t0/2 + t1/2`, hence a query exactly on the
  midpoint selects the LEFT (earlier) sample.
* The Python exception raised by `np.amin` on an empty array (fewer than 2
  time stamps) is modelled by `Except.error`; the explicit `return None` of
  `fill` is modelled by `Except.ok none`.
-/

namespace InterpolateMissingValues

/-- Embedding of `numpy.rint`: round to the nearest integer, halves to the
nearest even integer. -/
def rint (q : ℚ) : ℤ :=
  if q - (⌊q⌋ : ℚ) < 1/2 then ⌊q⌋
  else if 1/2 < q - (⌊q⌋ : ℚ) then ⌊q⌋ + 1
  else if ⌊q⌋ % 2 = 0 then ⌊q⌋ else ⌊q⌋ + 1

/-- Embedding of the `Interpolation` enum of the tool (the four scipy
`interp1d` kinds the tool accepts). -/
inductive Interpolation where
  | PREVIOUS
  | NEXT
  | NEAREST
  | LINEAR
  deriving DecidableEq, Repr

/-- Embedding of `spinedb_api.TimeSeriesVariableResolution`: ordered time
stamps, positionally matching values, two presentation flags and an index
name.  The Python attribute `repeat` is a Lean keyword, hence the field is
spelled `repeats` here. -/
structure TimeSeriesVariableResolution where
  indexes : List ℚ
  values : List ℚ
  ignore_year : Bool
  repeats : Bool
  index_name : String
  deriving DecidableEq, Repr

/-- Embedding of `spinedb_api.TimeSeriesFixedResolution`: a start stamp, a
resolution (the detected step, a duration), dense values, the two flags and
an index name.  The Python attribute `repeat` is spelled `repeats` here. -/
structure TimeSeriesFixedResolution where
  start : ℚ
  resolution : ℚ
  values : List ℚ
  ignore_year : Bool
  repeats : Bool
  index_name : String
  deriving DecidableEq, Repr

/-- Embedding of `numpy.diff`: consecutive differences
`diffs[i] = l[i+1] - l[i]`. -/
def npdiff (l : List ℚ) : List ℚ :=
  List.zipWith (fun a b => b - a) l l.tail

/-- The grid tolerance `1e-8` of `fill` (line 56 of the source). -/
def gridTolerance : ℚ := 1 / 100000000

/-- Embedding of `scipy.interpolate.interp1d` restricted to two sample
points `(x0, y0), (x1, y1)`, queried at `t`, for the four kinds used by the
tool.  `previous` holds the value of the largest sample point `≤ t`;
`next` holds the value of the smallest sample point `≥ t`; `nearest`
compares `t` with the midpoint `x0/2 + x1/2` using `side = left`, so a tie
selects the left sample; `linear` is the straight line through the two
points. -/
def interp1d (x0 x1 y0 y1 : ℚ) (method : Interpolation) (t : ℚ) : ℚ :=
  match method with
  | .PREVIOUS => if t < x1 then y0 else y1
  | .NEXT => if t ≤ x0 then y0 else y1
  | .NEAREST => if t ≤ x0/2 + x1/2 then y0 else y1
  | .LINEAR => y0 + (y1 - y0) * (t - x0) / (x1 - x0)

/-- Embedding of the interpolation stamps of one gap (line 67 of the
source): `[t0 + n * step for n in np.arange(1.0, step_count)]`, i.e. the
stamps `t0 + n·step` for `n = 1 .. cnt - 1`. -/
def interiorStamps (t0 step : ℚ) (cnt : ℤ) : List ℚ :=
  (List.range (cnt.toNat - 1)).map (fun (n : ℕ) => t0 + ((n : ℚ) + 1) * step)

/-- Embedding of the main loop of `fill` (lines 59 to 70 of the source):
walks the time stamps, values and rounded step counts in lockstep; for each
interval it emits the original left value, followed, when the step count
exceeds one, by the interpolated interior values.  (The Python loop indexes
`time_series.indexes[i : i + 2]` and `time_series.values[i : i + 2]` by the
position `i` of the step count; this recursion consumes the same triples in
order.) -/
def fillLoop (method : Interpolation) (step : ℚ) :
    List ℚ → List ℚ → List ℤ → List ℚ
  | t0 :: t1 :: ts, v0 :: v1 :: vs, cnt :: cnts =>
    (if 1 < cnt then
      v0 :: (interiorStamps t0 step cnt).map (interp1d t0 t1 v0 v1 method)
    else [v0])
      ++ fillLoop method step (t1 :: ts) (v1 :: vs) cnts
  | _, _, _ => []

/-- Line 52 of the source: `diffs = np.diff(time_series.indexes)`. -/
def diffsOf (ts : TimeSeriesVariableResolution) : List ℚ :=
  npdiff ts.indexes

/-- Line 53 of the source: `step = np.amin(diffs)` (value of `np.amin` when
the diff list is non-empty; `fill` raises before using it otherwise). -/
def stepOf (ts : TimeSeriesVariableResolution) : ℚ :=
  ((diffsOf ts).min?).getD 0

/-- Line 54 of the source: `fractional_steps = diffs / step`. -/
def fractionalOf (ts : TimeSeriesVariableResolution) : List ℚ :=
  (diffsOf ts).map (fun d => d / stepOf ts)

/-- Line 55 of the source: `steps = np.rint(fractional_steps)`. -/
def roundedOf (ts : TimeSeriesVariableResolution) : List ℤ :=
  (fractionalOf ts).map rint

/-- Line 56 of the source: `np.amax(np.abs(steps - fractional_steps))`
(value of `np.amax` when the list is non-empty). -/
def maxAbsDevOf (ts : TimeSeriesVariableResolution) : ℚ :=
  ((List.zipWith (fun (s : ℤ) (f : ℚ) => |(s : ℚ) - f|)
    (roundedOf ts) (fractionalOf ts)).max?).getD 0

/-- Message of the `ValueError` numpy raises when `np.amin` is applied to an
empty array, as happens in `fill` for a series with fewer than two points. -/
def aminEmptyError : String := "zero-size array to reduction operation minimum which has no identity"

/-- Embedding of `fill` (lines 42 to 80 of the source).  `Except.error`
models the Python exception raised by `np.amin` on an empty diff array;
`Except.ok none` models the explicit `return None` on a non-uniform grid;
`Except.ok (some out)` models a successful fill. -/
def fill (ts : TimeSeriesVariableResolution) (method : Interpolation) :
    Except String (Option TimeSeriesFixedResolution) :=
  if (diffsOf ts).isEmpty then .error aminEmptyError
  else if gridTolerance < maxAbsDevOf ts then .ok none
  else
    .ok (some
      { start := ts.indexes.headD 0
        resolution := stepOf ts
        values := fillLoop method (stepOf ts) ts.indexes ts.values (roundedOf ts)
          ++ [ts.values.getLastD 0]
        ignore_year := ts.ignore_year
        repeats := ts.repeats
        index_name := ts.index_name })

/-- Validity of an input series as assumed by the specification: strictly
increasing time stamps, at least two points, and values of the same length
as the time stamps. -/
def ValidSeries (ts : TimeSeriesVariableResolution) : Prop :=
  List.Chain' (fun a b => a < b) ts.indexes ∧
    2 ≤ ts.indexes.length ∧ ts.values.length = ts.indexes.length

/-- Cumulative step offset: the sum of the first `i` rounded step counts,
i.e. the output position at which the `i`-th original value is emitted. -/
def cumOffset (cnts : List ℤ) (i : ℕ) : ℕ :=
  ((cnts.take i).map Int.toNat).sum

/-! Embedding of `process_database` (lines 83 to 109 of the source).  The
database query result is modelled as a list of rows; `from_database` is
modelled by the row directly carrying its decoded value (a variable
resolution time series, or anything else); `to_database` is modelled by the
update item carrying the filled series itself.  The `print(...,
file=sys.stderr)` call is modelled by a list of emitted stderr lines,
returned alongside the update list. -/

/-- Decoded database value of a parameter value row: either a variable
resolution time series or some other value kind. -/
inductive DatabaseValue where
  | timeSeriesVariable (ts : TimeSeriesVariableResolution)
  | other
  deriving DecidableEq, Repr

/-- One row of the `parameter_value_sq` query: its id, its `type` field and
its decoded value. -/
structure ValueRow where
  id : ℕ
  type : String
  value : DatabaseValue
  deriving DecidableEq, Repr

/-- One element of the update list built by `process_database`
(the dict with keys `id`, `value`, `type` on line 108 of the source; the
encoded value is modelled by the series itself). -/
structure UpdateItem where
  id : ℕ
  value : TimeSeriesFixedResolution
  type : String
  deriving DecidableEq, Repr

/-- Diagnostic printed to stderr by `process_database` when `fill` returns
`None` (line 105 of the source; the source text uses the contraction
of could not). -/
def fillFailureMessage : String := "Could not fill a time series."

/-- Embedding of `process_database`: walks the rows in order, skipping rows
whose type is not time series, rows that do not decode to a variable
resolution series and series shorter than 3 points; a `fill` failure value
emits a diagnostic line and skips the row; a `fill` exception propagates.
Returns the update list together with the emitted stderr lines. -/
def process_database : List ValueRow → Interpolation →
    Except String (List UpdateItem × List String)
  | [], _ => .ok ([], [])
  | row :: rest, method =>
    if row.type ≠ "time_series" then process_database rest method
    else
      match row.value with
      | .other => process_database rest method
      | .timeSeriesVariable ts =>
        if ts.indexes.length < 3 then process_database rest method
        else
          match fill ts method with
          | .error e => .error e
          | .ok none =>
            (process_database rest method).map
              (fun p => (p.1, fillFailureMessage :: p.2))
          | .ok (some nts) =>
            (process_database rest method).map
              (fun p => (⟨row.id, nts, "time_series"⟩ :: p.1, p.2))

/-! Basic facts about the embedded numpy operations. -/

lemma npdiff_cons_cons (a b : ℚ) (l : List ℚ) :
    npdiff (a :: b :: l) = (b - a) :: npdiff (b :: l) := rfl

lemma npdiff_length (l : List ℚ) : (npdiff l).length = l.length - 1 := by
  simp only [npdiff, List.length_zipWith, List.length_tail]
  omega

lemma npdiff_pos {l : List ℚ} (h : List.Chain' (fun a b => a < b) l) :
    ∀ d ∈ npdiff l, 0 < d := by
  induction l with
  | nil => intro d hd; simp [npdiff] at hd
  | cons a l ih =>
    cases l with
    | nil => intro d hd; simp [npdiff] at hd
    | cons b l' =>
      rw [List.chain'_cons] at h
      intro d hd
      rw [npdiff_cons_cons, List.mem_cons] at hd
      rcases hd with h1 | h2
      · subst h1; linarith [h.1]
      · exact ih h.2 d h2

lemma min?_getD_mem {l : List ℚ} (h : l ≠ []) : l.min?.getD 0 ∈ l := by
  cases hm : l.min? with
  | none => rw [List.min?_eq_none_iff] at hm; exact absurd hm h
  | some a => simpa using List.min?_mem (fun a b => min_choice a b) hm

lemma min?_getD_le {l : List ℚ} {d : ℚ} (hd : d ∈ l) : l.min?.getD 0 ≤ d := by
  cases hm : l.min? with
  | none =>
    rw [List.min?_eq_none_iff] at hm
    subst hm; simp at hd
  | some a =>
    have := (List.le_min?_iff (fun a b c => le_min_iff) hm).mp (le_refl a) d hd
    simpa using this

lemma le_max?_getD {l : List ℚ} {x : ℚ} (hx : x ∈ l) : x ≤ l.max?.getD 0 := by
  cases hm : l.max? with
  | none =>
    rw [List.max?_eq_none_iff] at hm
    subst hm; simp at hx
  | some a =>
    have := (List.max?_le_iff (fun a b c => max_le_iff) hm).mp (le_refl a) x hx
    simpa using this

lemma le_rint {q : ℚ} (h : 1 ≤ q) : 1 ≤ rint q := by
  have hf : 1 ≤ ⌊q⌋ := Int.le_floor.mpr (by exact_mod_cast h)
  unfold rint
  split_ifs <;> omega

lemma getD_zipWith {α β γ : Type} (f : α → β → γ) :
    ∀ (l1 : List α) (l2 : List β) (i : ℕ) (d1 : α) (d2 : β) (d : γ),
      i < l1.length → i < l2.length →
      (List.zipWith f l1 l2).getD i d = f (l1.getD i d1) (l2.getD i d2) := by
  intro l1
  induction l1 with
  | nil => intro l2 i _ _ _ h1 _; simp at h1
  | cons a l1 ih =>
    intro l2 i d1 d2 d h1 h2
    cases l2 with
    | nil => simp at h2
    | cons b l2 =>
      cases i with
      | zero => rfl
      | succ n =>
        simp only [List.zipWith_cons_cons, List.getD_cons_succ]
        exact ih l2 n d1 d2 d (by simp only [List.length_cons] at h1; omega)
          (by simp only [List.length_cons] at h2; omega)

lemma getD_tail (l : List ℚ) (i : ℕ) (d : ℚ) : l.tail.getD i d = l.getD (i + 1) d := by
  cases l <;> simp

lemma npdiff_getD {l : List ℚ} {i : ℕ} (h : i + 1 < l.length) :
    (npdiff l).getD i 0 = l.getD (i + 1) 0 - l.getD i 0 := by
  unfold npdiff
  rw [getD_zipWith (fun a b => b - a) l l.tail i 0 0 0 (by omega)
    (by simp only [List.length_tail]; omega)]
  rw [getD_tail]

/-! Facts about the detected step, the fractional and rounded step counts
and the maximal deviation, under the validity assumption. -/

lemma diffsOf_ne_nil {ts : TimeSeriesVariableResolution} (hv : ValidSeries ts) :
    diffsOf ts ≠ [] := by
  intro h
  have hlen := npdiff_length ts.indexes
  rw [show npdiff ts.indexes = diffsOf ts from rfl, h] at hlen
  have h2 := hv.2.1
  simp at hlen
  omega

lemma stepOf_pos {ts : TimeSeriesVariableResolution} (hv : ValidSeries ts) :
    0 < stepOf ts :=
  npdiff_pos hv.1 _ (min?_getD_mem (diffsOf_ne_nil hv))

lemma stepOf_le {ts : TimeSeriesVariableResolution} {d : ℚ} (hd : d ∈ diffsOf ts) :
    stepOf ts ≤ d :=
  min?_getD_le hd

lemma one_le_fractional {ts : TimeSeriesVariableResolution} (hv : ValidSeries ts) :
    ∀ f ∈ fractionalOf ts, 1 ≤ f := by
  intro f hf
  rw [fractionalOf, List.mem_map] at hf
  obtain ⟨d, hd, rfl⟩ := hf
  have h1 := stepOf_pos hv
  have h2 := stepOf_le hd
  rw [le_div_iff₀ h1]
  linarith

lemma one_le_rounded {ts : TimeSeriesVariableResolution} (hv : ValidSeries ts) :
    ∀ c ∈ roundedOf ts, 1 ≤ c := by
  intro c hc
  rw [roundedOf, List.mem_map] at hc
  obtain ⟨f, hf, rfl⟩ := hc
  exact le_rint (one_le_fractional hv f hf)

lemma fractionalOf_length (ts : TimeSeriesVariableResolution) :
    (fractionalOf ts).length = ts.indexes.length - 1 := by
  simp [fractionalOf, diffsOf, npdiff_length]

lemma roundedOf_length (ts : TimeSeriesVariableResolution) :
    (roundedOf ts).length = ts.indexes.length - 1 := by
  simp [roundedOf, fractionalOf, diffsOf, npdiff_length]

lemma roundedOf_getD {ts : TimeSeriesVariableResolution} {i : ℕ}
    (hi : i < (roundedOf ts).length) :
    (roundedOf ts).getD i 0 = rint ((fractionalOf ts).getD i 0) := by
  rw [roundedOf] at hi ⊢
  rw [List.getD_eq_getElem _ _ hi, List.getElem_map,
    List.getD_eq_getElem _ _ (by simpa using hi)]

lemma dev_le_of_maxAbsDev {ts : TimeSeriesVariableResolution}
    (h : maxAbsDevOf ts ≤ gridTolerance) {i : ℕ} (hi : i < (roundedOf ts).length) :
    |(((roundedOf ts).getD i 0 : ℤ) : ℚ) - (fractionalOf ts).getD i 0| ≤ gridTolerance := by
  refine le_trans ?_ h
  rw [maxAbsDevOf]
  apply le_max?_getD
  have hlen2 : i < (fractionalOf ts).length := by
    rw [fractionalOf_length]; rw [roundedOf_length] at hi; omega
  rw [← getD_zipWith (fun (s : ℤ) (f : ℚ) => |(s : ℚ) - f|) _ _ i 0 0 0 hi hlen2]
  have hz : i < (List.zipWith (fun (s : ℤ) (f : ℚ) => |(s : ℚ) - f|)
      (roundedOf ts) (fractionalOf ts)).length := by
    rw [List.length_zipWith]; omega
  rw [List.getD_eq_getElem _ _ hz]
  exact List.getElem_mem hz

/-! Structural lemmas about the main loop of `fill`. -/

lemma interiorStamps_length (t0 step : ℚ) (c : ℤ) :
    (interiorStamps t0 step c).length = c.toNat - 1 := by
  rw [interiorStamps, List.length_map, List.length_range]

lemma fillLoop_nil_cnts (m : Interpolation) (step : ℚ) (tsl vsl : List ℚ) :
    fillLoop m step tsl vsl [] = [] := by
  cases tsl with
  | nil => rfl
  | cons t0 tsl' =>
    cases tsl' with
    | nil => rfl
    | cons t1 ts =>
      cases vsl with
      | nil => rfl
      | cons v0 vsl' =>
        cases vsl' with
        | nil => rfl
        | cons v1 vs => rfl

lemma fillLoop_cons (m : Interpolation) (step t0 t1 v0 v1 : ℚ)
    (ts vs : List ℚ) (c : ℤ) (cs : List ℤ) :
    fillLoop m step (t0 :: t1 :: ts) (v0 :: v1 :: vs) (c :: cs) =
      (if 1 < c then
        v0 :: (interiorStamps t0 step c).map (interp1d t0 t1 v0 v1 m)
      else [v0])
        ++ fillLoop m step (t1 :: ts) (v1 :: vs) cs := rfl

lemma block_length (m : Interpolation) (step t0 t1 v0 v1 : ℚ) {c : ℤ} (hc : 1 ≤ c) :
    (if 1 < c then
      v0 :: (interiorStamps t0 step c).map (interp1d t0 t1 v0 v1 m)
    else [v0]).length = c.toNat := by
  split
  · rename_i h
    simp only [List.length_cons, List.length_map, interiorStamps_length]
    omega
  · rename_i h
    simp only [List.length_cons, List.length_nil]
    omega

lemma cumOffset_zero (cnts : List ℤ) : cumOffset cnts 0 = 0 := rfl

lemma cumOffset_cons_succ (c : ℤ) (cs : List ℤ) (j : ℕ) :
    cumOffset (c :: cs) (j + 1) = c.toNat + cumOffset cs j := by
  simp [cumOffset, List.take_succ_cons]

lemma fillLoop_length (m : Interpolation) (step : ℚ) :
    ∀ (cnts : List ℤ) (tsl vsl : List ℚ),
      cnts.length + 1 ≤ tsl.length → cnts.length + 1 ≤ vsl.length →
      (∀ c ∈ cnts, 1 ≤ c) →
      (fillLoop m step tsl vsl cnts).length = (cnts.map Int.toNat).sum := by
  intro cnts
  induction cnts with
  | nil => intro tsl vsl _ _ _; rw [fillLoop_nil_cnts]; rfl
  | cons c cs ih =>
    intro tsl vsl h1 h2 hc
    match tsl, h1 with
    | t0 :: t1 :: ts, h1 =>
    match vsl, h2 with
    | v0 :: v1 :: vs, h2 =>
    rw [fillLoop_cons, List.length_append,
      block_length m step t0 t1 v0 v1 (hc c (List.mem_cons_self c cs)),
      ih (t1 :: ts) (v1 :: vs) (by simp only [List.length_cons] at h1 ⊢; omega)
        (by simp only [List.length_cons] at h2 ⊢; omega)
        (fun x hx => hc x (List.mem_cons_of_mem c hx))]
    simp

lemma fillLoop_getD_cum (m : Interpolation) (step : ℚ) :
    ∀ (cnts : List ℤ) (tsl vsl : List ℚ) (i : ℕ),
      i < cnts.length →
      cnts.length + 1 ≤ tsl.length → cnts.length + 1 ≤ vsl.length →
      (∀ c ∈ cnts, 1 ≤ c) →
      (fillLoop m step tsl vsl cnts).getD (cumOffset cnts i) 0 = vsl.getD i 0 := by
  intro cnts
  induction cnts with
  | nil => intro tsl vsl i hi; simp at hi
  | cons c cs ih =>
    intro tsl vsl i hi h1 h2 hc
    match tsl, h1 with
    | t0 :: t1 :: ts, h1 =>
    match vsl, h2 with
    | v0 :: v1 :: vs, h2 =>
    rw [fillLoop_cons]
    cases i with
    | zero =>
      rw [cumOffset_zero]
      have hb : 0 < (if 1 < c then
          v0 :: (interiorStamps t0 step c).map (interp1d t0 t1 v0 v1 m)
        else [v0]).length := by
        rw [block_length m step t0 t1 v0 v1 (hc c (List.mem_cons_self c cs))]
        have := hc c (List.mem_cons_self c cs)
        omega
      rw [List.getD_append _ _ _ _ hb]
      split <;> rfl
    | succ j =>
      rw [cumOffset_cons_succ]
      have hb := block_length m step t0 t1 v0 v1 (hc c (List.mem_cons_self c cs))
      rw [List.getD_append_right _ _ _ _ (by omega), hb]
      have : c.toNat + cumOffset cs j - c.toNat = cumOffset cs j := by omega
      rw [this]
      have := ih (t1 :: ts) (v1 :: vs) j (by simpa using hi)
        (by simp only [List.length_cons] at h1 ⊢; omega)
        (by simp only [List.length_cons] at h2 ⊢; omega)
        (fun x hx => hc x (List.mem_cons_of_mem c hx))
      rw [this]
      rfl

lemma fillLoop_all_one (m : Interpolation) (step : ℚ) :
    ∀ (cnts : List ℤ) (tsl vsl : List ℚ),
      cnts.length + 1 ≤ tsl.length → cnts.length + 1 ≤ vsl.length →
      (∀ c ∈ cnts, c = 1) →
      fillLoop m step tsl vsl cnts = vsl.take cnts.length := by
  intro cnts
  induction cnts with
  | nil => intro tsl vsl _ _ _; rw [fillLoop_nil_cnts]; rfl
  | cons c cs ih =>
    intro tsl vsl h1 h2 hc
    match tsl, h1 with
    | t0 :: t1 :: ts, h1 =>
    match vsl, h2 with
    | v0 :: v1 :: vs, h2 =>
    rw [fillLoop_cons]
    have hc0 : c = 1 := hc c (List.mem_cons_self c cs)
    rw [if_neg (by omega)]
    rw [ih (t1 :: ts) (v1 :: vs) (by simp only [List.length_cons] at h1 ⊢; omega)
      (by simp only [List.length_cons] at h2 ⊢; omega)
      (fun x hx => hc x (List.mem_cons_of_mem c hx))]
    simp [List.take_succ_cons]

lemma fillLoop_getD_interior (m : Interpolation) (step : ℚ) :
    ∀ (cnts : List ℤ) (tsl vsl : List ℚ) (i k : ℕ),
      i < cnts.length →
      cnts.length + 1 ≤ tsl.length → cnts.length + 1 ≤ vsl.length →
      (∀ c ∈ cnts, 1 ≤ c) →
      1 ≤ k → k < (cnts.getD i 0).toNat →
      (fillLoop m step tsl vsl cnts).getD (cumOffset cnts i + k) 0 =
        interp1d (tsl.getD i 0) (tsl.getD (i + 1) 0) (vsl.getD i 0) (vsl.getD (i + 1) 0) m
          (tsl.getD i 0 + (k : ℚ) * step) := by
  intro cnts
  induction cnts with
  | nil => intro tsl vsl i k hi; simp at hi
  | cons c cs ih =>
    intro tsl vsl i k hi h1 h2 hc hk1 hk2
    match tsl, h1 with
    | t0 :: t1 :: ts, h1 =>
    match vsl, h2 with
    | v0 :: v1 :: vs, h2 =>
    rw [fillLoop_cons]
    cases i with
    | zero =>
      simp only [List.getD_cons_zero] at hk2
      have hgt : 1 < c := by omega
      rw [cumOffset_zero, if_pos hgt, Nat.zero_add]
      have hblen : k < (v0 :: (interiorStamps t0 step c).map
          (interp1d t0 t1 v0 v1 m)).length := by
        simp only [List.length_cons, List.length_map, interiorStamps_length]
        omega
      rw [List.getD_append _ _ _ _ hblen]
      obtain ⟨k', rfl⟩ : ∃ k', k = k' + 1 := ⟨k - 1, by omega⟩
      rw [List.getD_cons_succ]
      have hk' : k' < (interiorStamps t0 step c).length := by
        rw [interiorStamps_length]; omega
      rw [List.getD_eq_getElem _ _ (by simpa using hk'), List.getElem_map]
      simp only [interiorStamps, List.getElem_map, List.getElem_range,
        List.getD_cons_zero, List.getD_cons_succ]
      congr 1
      push_cast
      ring
    | succ j =>
      rw [cumOffset_cons_succ]
      have hb := block_length m step t0 t1 v0 v1 (hc c (List.mem_cons_self c cs))
      rw [List.getD_append_right _ _ _ _ (by omega), hb]
      have harith : c.toNat + cumOffset cs j + k - c.toNat = cumOffset cs j + k := by
        omega
      rw [harith]
      have := ih (t1 :: ts) (v1 :: vs) j k (by simpa using hi)
        (by simp only [List.length_cons] at h1 ⊢; omega)
        (by simp only [List.length_cons] at h2 ⊢; omega)
        (fun x hx => hc x (List.mem_cons_of_mem c hx)) hk1
        (by simpa using hk2)
      rw [this]
      rfl

/-! Unfolding lemmas for `fill`. -/

lemma diffsOf_not_isEmpty {ts : TimeSeriesVariableResolution} (hv : ValidSeries ts) :
    ¬(diffsOf ts).isEmpty := by
  intro h
  exact diffsOf_ne_nil hv (List.isEmpty_iff.mp h)

lemma fill_ok_some {ts : TimeSeriesVariableResolution} {m : Interpolation}
    {out : TimeSeriesFixedResolution} (h : fill ts m = .ok (some out)) :
    maxAbsDevOf ts ≤ gridTolerance ∧
      out = { start := ts.indexes.headD 0, resolution := stepOf ts,
              values := fillLoop m (stepOf ts) ts.indexes ts.values (roundedOf ts)
                ++ [ts.values.getLastD 0],
              ignore_year := ts.ignore_year, repeats := ts.repeats,
              index_name := ts.index_name } := by
  unfold fill at h
  split_ifs at h with h1 h2
  · exact absurd h (by simp)
  · refine ⟨not_lt.mp h2, ?_⟩
    simp only [Except.ok.injEq, Option.some.injEq] at h
    exact h.symm

lemma fill_eq_some (ts : TimeSeriesVariableResolution) (m : Interpolation)
    (h1 : ¬(diffsOf ts).isEmpty) (h2 : maxAbsDevOf ts ≤ gridTolerance) :
    fill ts m = .ok (some
      { start := ts.indexes.headD 0, resolution := stepOf ts,
        values := fillLoop m (stepOf ts) ts.indexes ts.values (roundedOf ts)
          ++ [ts.values.getLastD 0],
        ignore_year := ts.ignore_year, repeats := ts.repeats,
        index_name := ts.index_name }) := by
  unfold fill
  rw [if_neg h1, if_neg (not_lt.mpr h2)]

/-! Helper lemmas shared by the claim theorems. -/

lemma mem_zipWith {α β γ : Type} {f : α → β → γ} :
    ∀ {l1 : List α} {l2 : List β} {x : γ},
      x ∈ List.zipWith f l1 l2 → ∃ a ∈ l1, ∃ b ∈ l2, x = f a b := by
  intro l1
  induction l1 with
  | nil => intro l2 x hx; simp at hx
  | cons a l1 ih =>
    intro l2 x hx
    cases l2 with
    | nil => simp at hx
    | cons b l2 =>
      rw [List.zipWith_cons_cons, List.mem_cons] at hx
      rcases hx with h | h
      · exact ⟨a, List.mem_cons_self a l1, b, List.mem_cons_self b l2, h⟩
      · obtain ⟨a', ha', b', hb', rfl⟩ := ih h
        exact ⟨a', List.mem_cons_of_mem a ha', b', List.mem_cons_of_mem b hb', rfl⟩

lemma max?_getD_le_of_forall {l : List ℚ} {b : ℚ} (hb : 0 ≤ b)
    (h : ∀ x ∈ l, x ≤ b) : l.max?.getD 0 ≤ b := by
  cases hm : l.max? with
  | none => simpa using hb
  | some a => simpa using h a (List.max?_mem (fun a b => max_choice a b) hm)

lemma getD_mem_of_lt {α : Type} {d : α} {l : List α} {i : ℕ} (hi : i < l.length) :
    l.getD i d ∈ l := by
  rw [List.getD_eq_getElem _ _ hi]
  exact List.getElem_mem hi

lemma cumOffset_add_lt_sum {cnts : List ℤ} {i k : ℕ} (hi : i < cnts.length)
    (hk : k < (cnts.getD i 0).toNat) :
    cumOffset cnts i + k < (cnts.map Int.toNat).sum := by
  have hsplit : (cnts.map Int.toNat).sum
      = cumOffset cnts i + ((cnts.drop i).map Int.toNat).sum := by
    rw [cumOffset, ← List.sum_append, ← List.map_append, List.take_append_drop]
  have hdrop : cnts.drop i = cnts.getD i 0 :: cnts.drop (i + 1) := by
    rw [List.getD_eq_getElem _ _ hi]
    exact List.drop_eq_getElem_cons hi
  rw [hsplit, hdrop]
  simp only [List.map_cons, List.sum_cons]
  omega

lemma cumOffset_length (cnts : List ℤ) :
    cumOffset cnts cnts.length = (cnts.map Int.toNat).sum := by
  rw [cumOffset, List.take_length]

lemma getLastD_cons_of_ne_nil {a : ℚ} {l : List ℚ} (h : l ≠ []) :
    (a :: l).getLastD 0 = l.getLastD 0 := by
  rw [List.getLastD_cons]
  cases l with
  | nil => exact absurd rfl h
  | cons b l' => rw [List.getLastD_cons, List.getLastD_cons]

lemma getD_pred_length (l : List ℚ) (h : l ≠ []) :
    l.getD (l.length - 1) 0 = l.getLastD 0 := by
  rw [List.getLastD_eq_getLast?]
  have hlt : l.length - 1 < l.length := by
    cases l with
    | nil => exact absurd rfl h
    | cons a l' => simp
  rw [List.getD_eq_getElem _ _ hlt, List.getLast?_eq_getElem?]
  rw [List.getElem?_eq_getElem hlt]
  rfl

lemma take_append_getLastD : ∀ (l : List ℚ), l ≠ [] →
    l.take (l.length - 1) ++ [l.getLastD 0] = l := by
  intro l
  induction l with
  | nil => intro h; exact absurd rfl h
  | cons a l ih =>
    intro _
    cases l with
    | nil => rfl
    | cons b l' =>
      have step := ih (by simp)
      simp only [List.length_cons] at step ⊢
      rw [show l'.length + 1 + 1 - 1 = (l'.length + 1 - 1) + 1 by omega,
        List.take_succ_cons, getLastD_cons_of_ne_nil (by simp)]
      rw [List.cons_append, step]

lemma fractionalOf_getD {ts : TimeSeriesVariableResolution} {i : ℕ}
    (hi : i < (fractionalOf ts).length) :
    (fractionalOf ts).getD i 0 = (diffsOf ts).getD i 0 / stepOf ts := by
  rw [fractionalOf] at hi ⊢
  rw [List.getD_eq_getElem _ _ hi, List.getElem_map,
    List.getD_eq_getElem _ _ (by simpa using hi)]

lemma lengths_of_valid {ts : TimeSeriesVariableResolution} (hv : ValidSeries ts) :
    (roundedOf ts).length + 1 ≤ ts.indexes.length ∧
      (roundedOf ts).length + 1 ≤ ts.values.length := by
  rw [roundedOf_length, hv.2.2]
  have := hv.2.1
  omega

/-- Value of a successful `fill` at the output position of the `i`-th
original sample: it is the `i`-th input value. -/
lemma fill_value_at_cum {ts : TimeSeriesVariableResolution} {m : Interpolation}
    {out : TimeSeriesFixedResolution} (hv : ValidSeries ts)
    (h : fill ts m = .ok (some out)) {i : ℕ} (hi : i < ts.values.length) :
    out.values.getD (cumOffset (roundedOf ts) i) 0 = ts.values.getD i 0 := by
  obtain ⟨hdev, rfl⟩ := fill_ok_some h
  dsimp only
  obtain ⟨hlen1, hlen2⟩ := lengths_of_valid hv
  have hcnts := one_le_rounded hv
  have hK : (roundedOf ts).length = ts.values.length - 1 := by
    rw [roundedOf_length, hv.2.2]
  rcases Nat.lt_or_ge i (roundedOf ts).length with hik | hik
  · have hpos : cumOffset (roundedOf ts) i
        < (fillLoop m (stepOf ts) ts.indexes ts.values (roundedOf ts)).length := by
      rw [fillLoop_length m (stepOf ts) _ _ _ hlen1 hlen2 hcnts]
      have hmem := hcnts _ (getD_mem_of_lt (d := 0) hik)
      have : 0 < ((roundedOf ts).getD i 0).toNat := by omega
      simpa using cumOffset_add_lt_sum hik this
    rw [List.getD_append _ _ _ _ hpos]
    exact fillLoop_getD_cum m (stepOf ts) (roundedOf ts) ts.indexes ts.values i
      hik hlen1 hlen2 hcnts
  · have hieq : i = (roundedOf ts).length := by omega
    subst hieq
    have hflen : (fillLoop m (stepOf ts) ts.indexes ts.values (roundedOf ts)).length
        = cumOffset (roundedOf ts) (roundedOf ts).length := by
      rw [fillLoop_length m (stepOf ts) _ _ _ hlen1 hlen2 hcnts, cumOffset_length]
    rw [List.getD_append_right _ _ _ _ (by omega), hflen]
    have hz : cumOffset (roundedOf ts) (roundedOf ts).length
        - cumOffset (roundedOf ts) (roundedOf ts).length = 0 := by omega
    rw [hz]
    have hne : ts.values ≠ [] := by
      intro hnil
      rw [hnil] at hi
      simp at hi
    rw [show ([ts.values.getLastD 0].getD 0 0) = ts.values.getLastD 0 from rfl]
    rw [show (roundedOf ts).length = ts.values.length - 1 from hK]
    exact (getD_pred_length ts.values hne).symm

/-- Value of a successful `fill` at an interior (synthesized) position of
gap `i`: it is the two-point interpolation of the gap endpoints at the
stamp `t0 + k·step`. -/
lemma fill_interior_value {ts : TimeSeriesVariableResolution} {m : Interpolation}
    {out : TimeSeriesFixedResolution} (hv : ValidSeries ts)
    (h : fill ts m = .ok (some out)) {i k : ℕ}
    (hi : i < (roundedOf ts).length) (hk1 : 1 ≤ k)
    (hk2 : k < ((roundedOf ts).getD i 0).toNat) :
    out.values.getD (cumOffset (roundedOf ts) i + k) 0 =
      interp1d (ts.indexes.getD i 0) (ts.indexes.getD (i + 1) 0)
        (ts.values.getD i 0) (ts.values.getD (i + 1) 0) m
        (ts.indexes.getD i 0 + (k : ℚ) * stepOf ts) := by
  obtain ⟨hdev, rfl⟩ := fill_ok_some h
  dsimp only
  obtain ⟨hlen1, hlen2⟩ := lengths_of_valid hv
  have hcnts := one_le_rounded hv
  have hpos : cumOffset (roundedOf ts) i + k
      < (fillLoop m (stepOf ts) ts.indexes ts.values (roundedOf ts)).length := by
    rw [fillLoop_length m (stepOf ts) _ _ _ hlen1 hlen2 hcnts]
    exact cumOffset_add_lt_sum hi hk2
  rw [List.getD_append _ _ _ _ hpos]
  exact fillLoop_getD_interior m (stepOf ts) (roundedOf ts) ts.indexes ts.values i k
    hi hlen1 hlen2 hcnts hk1 hk2

lemma convex_combo_bounds (v0 v1 : ℚ) {r : ℚ} (h0 : 0 ≤ r) (h1 : r ≤ 1) :
    min v0 v1 ≤ v0 + (v1 - v0) * r ∧ v0 + (v1 - v0) * r ≤ max v0 v1 := by
  rcases le_total v0 v1 with hc | hc
  · rw [min_eq_left hc, max_eq_right hc]
    constructor <;> nlinarith
  · rw [min_eq_right hc, max_eq_left hc]
    constructor <;> nlinarith

/-! Concrete series used in examples, witnesses and counterexamples.
Timestamps count minutes: 480 is 08:00, 540 is 09:00, 570 is 09:30. -/

/-- The three-point series of the repository tests: values -30, -20, -10 at
08:00, 09:00, 09:30. -/
def linearExample : TimeSeriesVariableResolution :=
  { indexes := [480, 540, 570], values := [-30, -20, -10],
    ignore_year := false, repeats := false, index_name := "" }

/-- Expected result of filling `linearExample` with the linear policy:
step 30 minutes from 08:00, values -30, -25, -20, -10. -/
def linearExampleOutput : TimeSeriesFixedResolution :=
  { start := 480, resolution := 30, values := [-30, -25, -20, -10],
    ignore_year := false, repeats := false, index_name := "" }

/-- A series whose maximal grid deviation is exactly the tolerance: diffs
are 1 and 2 + 1e-8, so the second fractional step is 2 + 1e-8 and its
deviation from the rounded count 2 is exactly 1e-8. -/
def toleranceBoundarySeries : TimeSeriesVariableResolution :=
  { indexes := [0, 1, 3 + 1 / 100000000], values := [0, 0, 0],
    ignore_year := false, repeats := false, index_name := "" }

/-- A series with no points at all. -/
def emptySeries : TimeSeriesVariableResolution :=
  { indexes := [], values := [], ignore_year := false, repeats := false,
    index_name := "" }

/-! Concrete evaluations, used to discharge hypotheses of the claim
theorems at concrete inputs.  Kernel reduction of rational division is not
available to `decide`, so these are established by `norm_num`. -/

lemma valid_linearExample : ValidSeries linearExample := by
  refine ⟨?_, ?_, ?_⟩ <;> norm_num [linearExample, List.chain'_cons]

lemma fill_linearExample :
    fill linearExample .LINEAR = .ok (some linearExampleOutput) := by
  norm_num [fill, linearExample, linearExampleOutput, diffsOf, npdiff, stepOf,
    fractionalOf, roundedOf, maxAbsDevOf, gridTolerance, rint, fillLoop,
    interiorStamps, interp1d, List.min?_cons', List.max?_cons', List.foldl,
    min_def, max_def, show (2 : ℤ).toNat - 1 = 1 from rfl,
    show List.range 1 = [0] from rfl, Function.comp]

lemma valid_toleranceBoundarySeries : ValidSeries toleranceBoundarySeries := by
  refine ⟨?_, ?_, ?_⟩ <;> norm_num [toleranceBoundarySeries, List.chain'_cons]

lemma diffsOf_toleranceBoundarySeries :
    diffsOf toleranceBoundarySeries = [1, 2 + 1 / 100000000] := by
  norm_num [diffsOf, npdiff, toleranceBoundarySeries]

lemma maxAbsDevOf_toleranceBoundarySeries :
    maxAbsDevOf toleranceBoundarySeries = gridTolerance := by
  norm_num [maxAbsDevOf, roundedOf, fractionalOf, stepOf,
    diffsOf_toleranceBoundarySeries, gridTolerance, rint,
    List.min?_cons', List.max?_cons', List.foldl, min_def, max_def]

lemma fill_toleranceBoundarySeries_ok (m : Interpolation) :
    ∃ out, fill toleranceBoundarySeries m = .ok (some out) :=
  ⟨_, fill_eq_some toleranceBoundarySeries m
    (by rw [diffsOf_toleranceBoundarySeries]; simp)
    (le_of_eq maxAbsDevOf_toleranceBoundarySeries)⟩

/-- C1: for every valid input series (strictly increasing timestamps,
N ≥ 2, equal-length values) whose grid check passes, the value sequence of
the fixed-resolution series returned by `fill` has length exactly one plus
the sum of the rounded step counts. -/
theorem fill_length_law (ts : TimeSeriesVariableResolution) (m : Interpolation)
    (out : TimeSeriesFixedResolution) (hv : ValidSeries ts)
    (h : fill ts m = .ok (some out)) :
    out.values.length = 1 + ((roundedOf ts).map Int.toNat).sum := by
  obtain ⟨hdev, rfl⟩ := fill_ok_some h
  dsimp only
  obtain ⟨hlen1, hlen2⟩ := lengths_of_valid hv
  rw [List.length_append,
    fillLoop_length m (stepOf ts) _ _ _ hlen1 hlen2 (one_le_rounded hv)]
  simp only [List.length_cons, List.length_nil]
  omega

/-- Witness for C1 at the concrete test series. -/
theorem fill_length_law_witness :
    linearExampleOutput.values.length
      = 1 + ((roundedOf linearExample).map Int.toNat).sum :=
  fill_length_law linearExample .LINEAR linearExampleOutput valid_linearExample
    fill_linearExample

/-- C2: on a valid series `fill` never raises; it returns the `None`
failure value exactly when the maximal absolute deviation between a
gap-to-step ratio and its rounded integer exceeds 1e-8; and a series whose
maximal deviation is exactly 1e-8 passes and yields a fixed-resolution
series. -/
theorem fill_failure_iff (ts : TimeSeriesVariableResolution) (m : Interpolation)
    (hv : ValidSeries ts) :
    (∃ o, fill ts m = .ok o) ∧
      ((fill ts m = .ok none) ↔ gridTolerance < maxAbsDevOf ts) ∧
      (maxAbsDevOf toleranceBoundarySeries = gridTolerance ∧
        ∃ out, fill toleranceBoundarySeries m = .ok (some out)) := by
  have h1 := diffsOf_not_isEmpty hv
  refine ⟨?_, ⟨?_, ?_⟩, ?_, ?_⟩
  · unfold fill
    rw [if_neg h1]
    split_ifs
    · exact ⟨none, rfl⟩
    · exact ⟨_, rfl⟩
  · intro h
    unfold fill at h
    rw [if_neg h1] at h
    split_ifs at h with h2
    · exact h2
    · simp at h
  · intro h2
    unfold fill
    rw [if_neg h1, if_pos h2]
  · exact maxAbsDevOf_toleranceBoundarySeries
  · exact fill_toleranceBoundarySeries_ok m

/-- Witness for C2 at the exact-tolerance boundary series. -/
theorem fill_failure_iff_witness :
    (∃ o, fill toleranceBoundarySeries .LINEAR = .ok o) ∧
      ((fill toleranceBoundarySeries .LINEAR = .ok none) ↔
        gridTolerance < maxAbsDevOf toleranceBoundarySeries) ∧
      (maxAbsDevOf toleranceBoundarySeries = gridTolerance ∧
        ∃ out, fill toleranceBoundarySeries .LINEAR = .ok (some out)) :=
  fill_failure_iff toleranceBoundarySeries .LINEAR valid_toleranceBoundarySeries

/-- C7: on success the output flags equal the input flags, and the flags
are never interpreted: filling a series with any other flag values yields
the same result with only the flags substituted. -/
theorem fill_flag_passthrough (ts : TimeSeriesVariableResolution)
    (m : Interpolation) (out : TimeSeriesFixedResolution) (_hv : ValidSeries ts)
    (h : fill ts m = .ok (some out)) :
    out.ignore_year = ts.ignore_year ∧ out.repeats = ts.repeats ∧
      ∀ b1 b2, fill { ts with ignore_year := b1, repeats := b2 } m
        = (fill ts m).map (Option.map
            (fun o => { o with ignore_year := b1, repeats := b2 })) := by
  obtain ⟨hdev, rfl⟩ := fill_ok_some h
  refine ⟨rfl, rfl, ?_⟩
  intro b1 b2
  unfold fill
  have e1 : diffsOf { ts with ignore_year := b1, repeats := b2 } = diffsOf ts := rfl
  have e2 : maxAbsDevOf { ts with ignore_year := b1, repeats := b2 }
      = maxAbsDevOf ts := rfl
  have e3 : stepOf { ts with ignore_year := b1, repeats := b2 } = stepOf ts := rfl
  have e4 : roundedOf { ts with ignore_year := b1, repeats := b2 }
      = roundedOf ts := rfl
  rw [e1, e2, e3, e4]
  split_ifs <;> rfl

/-- Witness for C7 at the concrete test series, with both flags flipped to
true. -/
theorem fill_flag_passthrough_witness :
    linearExampleOutput.ignore_year = linearExample.ignore_year ∧
      linearExampleOutput.repeats = linearExample.repeats ∧
      fill { linearExample with ignore_year := true, repeats := true } .LINEAR
        = (fill linearExample .LINEAR).map (Option.map
            (fun o => { o with ignore_year := true, repeats := true })) := by
  obtain ⟨a, b, c⟩ :=
    fill_flag_passthrough linearExample .LINEAR linearExampleOutput
      valid_linearExample fill_linearExample
  exact ⟨a, b, c true true⟩

/-- C9: a series with fewer than two points makes `fill` raise (the numpy
ValueError from the minimum of an empty difference array, modelled as
`Except.error`) rather than returning the `None` failure value or a
series, so the malformed-input case is distinguishable from the
non-uniform-grid failure value. -/
theorem fill_short_series_raises (ts : TimeSeriesVariableResolution)
    (m : Interpolation) (h : ts.indexes.length < 2) :
    fill ts m = .error aminEmptyError ∧ ∀ o, fill ts m ≠ .ok o := by
  have hd : (diffsOf ts).isEmpty := by
    rw [diffsOf]
    cases hix : ts.indexes with
    | nil => rfl
    | cons a l =>
      cases l with
      | nil => rfl
      | cons b l' =>
        rw [hix] at h
        simp only [List.length_cons] at h
        omega
  have herr : fill ts m = .error aminEmptyError := by
    unfold fill
    rw [if_pos hd]
  refine ⟨herr, fun o ho => ?_⟩
  rw [herr] at ho
  exact absurd ho (by simp)

/-- Witness for C9 at the empty series (the no-raise clause instantiated at
the None failure value). -/
theorem fill_short_series_raises_witness :
    fill emptySeries .LINEAR = .error aminEmptyError ∧
      fill emptySeries .LINEAR ≠ .ok none := by
  obtain ⟨a, b⟩ := fill_short_series_raises emptySeries .LINEAR (by decide)
  exact ⟨a, b none⟩

/-- C3: on every successful fill, for every policy, the first output value
equals the first input value, the last output value equals the last input
value, and each original value appears in the output at the index equal to
the cumulative sum of the rounded step counts of the preceding
intervals. -/
theorem fill_endpoint_preservation (ts : TimeSeriesVariableResolution)
    (m : Interpolation) (out : TimeSeriesFixedResolution) (hv : ValidSeries ts)
    (h : fill ts m = .ok (some out)) :
    out.values.getD 0 0 = ts.values.getD 0 0 ∧
      out.values.getLastD 0 = ts.values.getLastD 0 ∧
      ∀ i, i < ts.values.length →
        out.values.getD (cumOffset (roundedOf ts) i) 0 = ts.values.getD i 0 := by
  have hmain : ∀ i, i < ts.values.length →
      out.values.getD (cumOffset (roundedOf ts) i) 0 = ts.values.getD i 0 :=
    fun i hi => fill_value_at_cum hv h hi
  have hlen0 : 0 < ts.values.length := by
    rw [hv.2.2]
    have := hv.2.1
    omega
  refine ⟨?_, ?_, hmain⟩
  · have := hmain 0 hlen0
    simpa [cumOffset_zero] using this
  · obtain ⟨hdev, hout⟩ := fill_ok_some h
    rw [hout]
    dsimp only
    rw [List.getLastD_eq_getLast?, List.getLast?_concat]
    rfl

/-- Witness for C3 at the concrete test series, with the cumulative-offset
clause instantiated at the middle sample. -/
theorem fill_endpoint_preservation_witness :
    linearExampleOutput.values.getD 0 0 = linearExample.values.getD 0 0 ∧
      linearExampleOutput.values.getLastD 0 = linearExample.values.getLastD 0 ∧
      linearExampleOutput.values.getD (cumOffset (roundedOf linearExample) 1) 0
        = linearExample.values.getD 1 0 := by
  obtain ⟨a, b, c⟩ := fill_endpoint_preservation linearExample .LINEAR
    linearExampleOutput valid_linearExample fill_linearExample
  exact ⟨a, b, c 1 (by norm_num [linearExample])⟩

/-- C4: if every consecutive timestamp difference equals the minimum
difference (so every rounded step count is one, which includes every
two-point series), fill succeeds for every policy and the output values
equal the input values, with unchanged length. -/
theorem fill_regular_identity (ts : TimeSeriesVariableResolution)
    (m : Interpolation) (hv : ValidSeries ts)
    (hreg : ∀ d ∈ diffsOf ts, d = stepOf ts) :
    ∃ out, fill ts m = .ok (some out) ∧ out.values = ts.values ∧
      out.values.length = ts.values.length := by
  have hstep := stepOf_pos hv
  have hfr : ∀ f ∈ fractionalOf ts, f = 1 := by
    intro f hf
    rw [fractionalOf, List.mem_map] at hf
    obtain ⟨d, hd, rfl⟩ := hf
    rw [hreg d hd, div_self (ne_of_gt hstep)]
  have hone : ∀ c ∈ roundedOf ts, c = 1 := by
    intro c hc
    rw [roundedOf, List.mem_map] at hc
    obtain ⟨f, hf, rfl⟩ := hc
    rw [hfr f hf]
    norm_num [rint]
  have hdev : maxAbsDevOf ts ≤ gridTolerance := by
    rw [maxAbsDevOf]
    apply max?_getD_le_of_forall (by norm_num [gridTolerance])
    intro x hx
    obtain ⟨a, ha, b, hb, rfl⟩ := mem_zipWith hx
    rw [roundedOf, List.mem_map] at ha
    obtain ⟨f, hf, rfl⟩ := ha
    rw [hfr f hf, hfr b hb]
    norm_num [rint, gridTolerance]
  obtain ⟨hlen1, hlen2⟩ := lengths_of_valid hv
  have hval : fillLoop m (stepOf ts) ts.indexes ts.values (roundedOf ts)
      ++ [ts.values.getLastD 0] = ts.values := by
    rw [fillLoop_all_one m (stepOf ts) (roundedOf ts) ts.indexes ts.values
      hlen1 hlen2 hone]
    rw [show (roundedOf ts).length = ts.values.length - 1 by
      rw [roundedOf_length, hv.2.2]]
    apply take_append_getLastD
    intro hnil
    rw [hnil] at hlen2
    simp at hlen2
  exact ⟨_, fill_eq_some ts m (diffsOf_not_isEmpty hv) hdev, hval,
    congrArg List.length hval⟩

/-- A two-point series: its single diff is trivially the minimum. -/
def twoPointSeries : TimeSeriesVariableResolution :=
  { indexes := [0, 10], values := [5, 7], ignore_year := true, repeats := false,
    index_name := "" }

lemma valid_twoPointSeries : ValidSeries twoPointSeries := by
  refine ⟨?_, ?_, ?_⟩ <;> norm_num [twoPointSeries, List.chain'_cons]

lemma diffsOf_twoPointSeries : diffsOf twoPointSeries = [10] := by
  norm_num [diffsOf, npdiff, twoPointSeries]

lemma stepOf_twoPointSeries : stepOf twoPointSeries = 10 := by
  norm_num [stepOf, diffsOf_twoPointSeries, List.min?_cons', List.foldl]

/-- Witness for C4 at a two-point series. -/
theorem fill_regular_identity_witness :
    ∃ out, fill twoPointSeries .NEAREST = .ok (some out) ∧
      out.values = twoPointSeries.values ∧
      out.values.length = twoPointSeries.values.length :=
  fill_regular_identity twoPointSeries .NEAREST valid_twoPointSeries
    (by rw [diffsOf_twoPointSeries, stepOf_twoPointSeries]; simp)

lemma roundedOf_linearExample : roundedOf linearExample = [2, 1] := by
  norm_num [roundedOf, fractionalOf, stepOf, diffsOf, npdiff, linearExample,
    rint, List.min?_cons', List.foldl, min_def]

/-- C5: under the linear policy, every synthesized interior value at stamp
`t = t0 + k·step` inside gap `i` equals `v0 + (v1 − v0)·(t − t0)/(t1 − t0)`;
in particular filling the test series (values -30, -20, -10 at 08:00,
09:00, 09:30) with the linear policy returns values -30, -25, -20, -10 at
step 30 minutes starting 08:00. -/
theorem fill_linear_formula (ts : TimeSeriesVariableResolution)
    (out : TimeSeriesFixedResolution) (hv : ValidSeries ts)
    (h : fill ts .LINEAR = .ok (some out)) (i k : ℕ)
    (hi : i < (roundedOf ts).length) (hk1 : 1 ≤ k)
    (hk2 : k < ((roundedOf ts).getD i 0).toNat) :
    out.values.getD (cumOffset (roundedOf ts) i + k) 0 =
      ts.values.getD i 0 + (ts.values.getD (i + 1) 0 - ts.values.getD i 0) *
        ((ts.indexes.getD i 0 + (k : ℚ) * stepOf ts) - ts.indexes.getD i 0) /
        (ts.indexes.getD (i + 1) 0 - ts.indexes.getD i 0) ∧
      fill linearExample .LINEAR = .ok (some linearExampleOutput) := by
  refine ⟨?_, fill_linearExample⟩
  rw [fill_interior_value hv h hi hk1 hk2]
  rfl

/-- Witness for C5 at the concrete test series, first gap, first interior
point (08:30). -/
theorem fill_linear_formula_witness :
    linearExampleOutput.values.getD (cumOffset (roundedOf linearExample) 0 + 1) 0 =
      linearExample.values.getD 0 0 +
        (linearExample.values.getD 1 0 - linearExample.values.getD 0 0) *
        ((linearExample.indexes.getD 0 0 + ((1 : ℕ) : ℚ) * stepOf linearExample)
          - linearExample.indexes.getD 0 0) /
        (linearExample.indexes.getD 1 0 - linearExample.indexes.getD 0 0) ∧
      fill linearExample .LINEAR = .ok (some linearExampleOutput) :=
  fill_linear_formula linearExample linearExampleOutput valid_linearExample
    fill_linearExample 0 1 (by rw [roundedOf_linearExample]; norm_num)
    le_rfl (by rw [roundedOf_linearExample]; decide)

/-! Concrete material for the nearest-policy tie. -/

/-- A series with a gap of exactly two steps, so that its single interior
stamp 30 lies exactly midway between the samples at 0 and 60. -/
def nearestTieSeries : TimeSeriesVariableResolution :=
  { indexes := [0, 60, 90], values := [10, 20, 30], ignore_year := false,
    repeats := false, index_name := "" }

/-- What `fill` returns on `nearestTieSeries` with the nearest policy: the
midpoint stamp 30 receives the LEFT value 10. -/
def nearestTieOutput : TimeSeriesFixedResolution :=
  { start := 0, resolution := 30, values := [10, 10, 20, 30],
    ignore_year := false, repeats := false, index_name := "" }

lemma valid_nearestTieSeries : ValidSeries nearestTieSeries := by
  refine ⟨?_, ?_, ?_⟩ <;> norm_num [nearestTieSeries, List.chain'_cons]

lemma roundedOf_nearestTieSeries : roundedOf nearestTieSeries = [2, 1] := by
  norm_num [roundedOf, fractionalOf, stepOf, diffsOf, npdiff, nearestTieSeries,
    rint, List.min?_cons', List.foldl, min_def]

lemma stepOf_nearestTieSeries : stepOf nearestTieSeries = 30 := by
  norm_num [stepOf, diffsOf, npdiff, nearestTieSeries, List.min?_cons',
    List.foldl, min_def]

lemma fill_nearestTieSeries :
    fill nearestTieSeries .NEAREST = .ok (some nearestTieOutput) := by
  norm_num [fill, nearestTieSeries, nearestTieOutput, diffsOf, npdiff, stepOf,
    fractionalOf, roundedOf, maxAbsDevOf, gridTolerance, rint, fillLoop,
    interiorStamps, interp1d, List.min?_cons', List.max?_cons', List.foldl,
    min_def, max_def, show (2 : ℤ).toNat - 1 = 1 from rfl,
    show List.range 1 = [0] from rfl, Function.comp]

/-- C6 counterexample: in `nearestTieSeries`, the synthesized stamp 30 is
exactly midway between the samples (0, 10) and (60, 20) (both distances are
30), yet the code assigns it the LEFT endpoint value 10, not the right
endpoint value 20 as the claim states. -/
theorem fill_nearest_tie_counterexample :
    fill nearestTieSeries .NEAREST = .ok (some nearestTieOutput) ∧
      stepOf nearestTieSeries = 30 ∧
      (30 : ℚ) - 0 = 60 - 30 ∧
      nearestTieOutput.values.getD 1 0 = nearestTieSeries.values.getD 0 0 ∧
      nearestTieOutput.values.getD 1 0 ≠ nearestTieSeries.values.getD 1 0 := by
  refine ⟨fill_nearestTieSeries, stepOf_nearestTieSeries, by norm_num, ?_, ?_⟩
  · norm_num [nearestTieOutput, nearestTieSeries]
  · norm_num [nearestTieOutput, nearestTieSeries]

/-- C6 amended: under the nearest policy, each synthesized interior point
takes whichever of the two endpoint values is temporally closer, and an
interior point lying exactly midway between the two endpoints takes the
LEFT (earlier) endpoint value.  The distance to the left endpoint is
`k·step` and the distance to the right endpoint is `t1 − (t0 + k·step)`. -/
theorem fill_nearest_takes_closer (ts : TimeSeriesVariableResolution)
    (out : TimeSeriesFixedResolution) (hv : ValidSeries ts)
    (h : fill ts .NEAREST = .ok (some out)) (i k : ℕ)
    (hi : i < (roundedOf ts).length) (hk1 : 1 ≤ k)
    (hk2 : k < ((roundedOf ts).getD i 0).toNat) :
    ((k : ℚ) * stepOf ts
        < ts.indexes.getD (i + 1) 0 - (ts.indexes.getD i 0 + (k : ℚ) * stepOf ts) →
      out.values.getD (cumOffset (roundedOf ts) i + k) 0 = ts.values.getD i 0) ∧
    (ts.indexes.getD (i + 1) 0 - (ts.indexes.getD i 0 + (k : ℚ) * stepOf ts)
        < (k : ℚ) * stepOf ts →
      out.values.getD (cumOffset (roundedOf ts) i + k) 0
        = ts.values.getD (i + 1) 0) ∧
    ((k : ℚ) * stepOf ts
        = ts.indexes.getD (i + 1) 0 - (ts.indexes.getD i 0 + (k : ℚ) * stepOf ts) →
      out.values.getD (cumOffset (roundedOf ts) i + k) 0 = ts.values.getD i 0) := by
  rw [fill_interior_value hv h hi hk1 hk2]
  simp only [interp1d]
  refine ⟨fun hcl => ?_, fun hcl => ?_, fun hcl => ?_⟩
  · rw [if_pos (by linarith)]
  · rw [if_neg (by intro hco; linarith)]
  · rw [if_pos (by linarith)]

/-- Witness for C6 (amended) at the tie series: both distances are 30, so
the exact-midpoint clause applies and yields the left value. -/
theorem fill_nearest_takes_closer_witness :
    (((1 : ℕ) : ℚ) * stepOf nearestTieSeries
        < nearestTieSeries.indexes.getD 1 0
          - (nearestTieSeries.indexes.getD 0 0
            + ((1 : ℕ) : ℚ) * stepOf nearestTieSeries) →
      nearestTieOutput.values.getD (cumOffset (roundedOf nearestTieSeries) 0 + 1) 0
        = nearestTieSeries.values.getD 0 0) ∧
    (nearestTieSeries.indexes.getD 1 0
        - (nearestTieSeries.indexes.getD 0 0
          + ((1 : ℕ) : ℚ) * stepOf nearestTieSeries)
        < ((1 : ℕ) : ℚ) * stepOf nearestTieSeries →
      nearestTieOutput.values.getD (cumOffset (roundedOf nearestTieSeries) 0 + 1) 0
        = nearestTieSeries.values.getD 1 0) ∧
    (((1 : ℕ) : ℚ) * stepOf nearestTieSeries
        = nearestTieSeries.indexes.getD 1 0
          - (nearestTieSeries.indexes.getD 0 0
            + ((1 : ℕ) : ℚ) * stepOf nearestTieSeries) →
      nearestTieOutput.values.getD (cumOffset (roundedOf nearestTieSeries) 0 + 1) 0
        = nearestTieSeries.values.getD 0 0) :=
  fill_nearest_takes_closer nearestTieSeries nearestTieOutput
    valid_nearestTieSeries fill_nearestTieSeries 0 1
    (by rw [roundedOf_nearestTieSeries]; norm_num) le_rfl
    (by rw [roundedOf_nearestTieSeries]; decide)

/-- On a successful fill, an interior offset `k` of gap `i` satisfies
`0 < k·step < t1 − t0`: the synthesized stamp lies strictly between the
gap endpoints.  This uses the grid check: the rounded count differs from
the true ratio by at most the tolerance. -/
lemma interior_stamp_between {ts : TimeSeriesVariableResolution}
    (hv : ValidSeries ts) (hdev : maxAbsDevOf ts ≤ gridTolerance)
    {i k : ℕ} (hi : i < (roundedOf ts).length) (hk1 : 1 ≤ k)
    (hk2 : k < ((roundedOf ts).getD i 0).toNat) :
    0 < (k : ℚ) * stepOf ts ∧
      (k : ℚ) * stepOf ts
        < ts.indexes.getD (i + 1) 0 - ts.indexes.getD i 0 := by
  have hstep := stepOf_pos hv
  have hlen : i + 1 < ts.indexes.length := by
    rw [roundedOf_length] at hi
    omega
  have hdlen : i < (diffsOf ts).length := by
    rw [diffsOf, npdiff_length]
    omega
  have hd : ts.indexes.getD (i + 1) 0 - ts.indexes.getD i 0
      = (diffsOf ts).getD i 0 := by
    rw [diffsOf, npdiff_getD hlen]
  have hflen : i < (fractionalOf ts).length := by
    rw [fractionalOf_length, roundedOf_length] at *
    omega
  have hf : (fractionalOf ts).getD i 0 = (diffsOf ts).getD i 0 / stepOf ts :=
    fractionalOf_getD hflen
  have hfs : (fractionalOf ts).getD i 0 * stepOf ts = (diffsOf ts).getD i 0 := by
    rw [hf]
    exact div_mul_cancel₀ _ (ne_of_gt hstep)
  have hc1 : 1 ≤ (roundedOf ts).getD i 0 :=
    one_le_rounded hv _ (getD_mem_of_lt (d := 0) hi)
  have hkc : (k : ℚ) ≤ ((roundedOf ts).getD i 0 : ℚ) - 1 := by
    have : (k : ℤ) ≤ (roundedOf ts).getD i 0 - 1 := by omega
    exact_mod_cast this
  have habs := dev_le_of_maxAbsDev hdev hi
  have hcub : ((roundedOf ts).getD i 0 : ℚ)
      ≤ (fractionalOf ts).getD i 0 + gridTolerance := by
    have := abs_le.mp habs
    linarith [this.1]
  constructor
  · positivity
  · rw [hd]
    have h1 : (k : ℚ) * stepOf ts
        ≤ ((fractionalOf ts).getD i 0 + gridTolerance - 1) * stepOf ts := by
      apply mul_le_mul_of_nonneg_right _ (le_of_lt hstep)
      linarith
    have h2 : ((fractionalOf ts).getD i 0 + gridTolerance - 1) * stepOf ts
        = (diffsOf ts).getD i 0 + (gridTolerance - 1) * stepOf ts := by
      rw [← hfs]
      ring
    have h3 : (gridTolerance - 1) * stepOf ts < 0 := by
      apply mul_neg_of_neg_of_pos _ hstep
      norm_num [gridTolerance]
    linarith

/-- C10: for every successful fill and every policy, every synthesized
interior value of a gap lies within the closed interval spanned by the two
enclosing original sample values. -/
theorem fill_interior_in_range (ts : TimeSeriesVariableResolution)
    (m : Interpolation) (out : TimeSeriesFixedResolution) (hv : ValidSeries ts)
    (h : fill ts m = .ok (some out)) (i k : ℕ)
    (hi : i < (roundedOf ts).length) (hk1 : 1 ≤ k)
    (hk2 : k < ((roundedOf ts).getD i 0).toNat) :
    min (ts.values.getD i 0) (ts.values.getD (i + 1) 0) ≤
        out.values.getD (cumOffset (roundedOf ts) i + k) 0 ∧
      out.values.getD (cumOffset (roundedOf ts) i + k) 0 ≤
        max (ts.values.getD i 0) (ts.values.getD (i + 1) 0) := by
  rw [fill_interior_value hv h hi hk1 hk2]
  obtain ⟨hpos, hlt⟩ :=
    interior_stamp_between hv (fill_ok_some h).1 hi hk1 hk2
  have hgap : ts.indexes.getD i 0 < ts.indexes.getD (i + 1) 0 := by linarith
  cases m with
  | PREVIOUS =>
    simp only [interp1d]
    split_ifs
    · exact ⟨min_le_left _ _, le_max_left _ _⟩
    · exact ⟨min_le_right _ _, le_max_right _ _⟩
  | NEXT =>
    simp only [interp1d]
    split_ifs
    · exact ⟨min_le_left _ _, le_max_left _ _⟩
    · exact ⟨min_le_right _ _, le_max_right _ _⟩
  | NEAREST =>
    simp only [interp1d]
    split_ifs
    · exact ⟨min_le_left _ _, le_max_left _ _⟩
    · exact ⟨min_le_right _ _, le_max_right _ _⟩
  | LINEAR =>
    simp only [interp1d]
    rw [show ts.indexes.getD i 0 + (k : ℚ) * stepOf ts - ts.indexes.getD i 0
      = (k : ℚ) * stepOf ts by ring]
    have hr0 : 0 ≤ (k : ℚ) * stepOf ts
        / (ts.indexes.getD (i + 1) 0 - ts.indexes.getD i 0) :=
      div_nonneg (le_of_lt hpos) (by linarith)
    have hr1 : (k : ℚ) * stepOf ts
        / (ts.indexes.getD (i + 1) 0 - ts.indexes.getD i 0) ≤ 1 :=
      le_of_lt ((div_lt_one (by linarith)).mpr hlt)
    have hb := convex_combo_bounds (ts.values.getD i 0)
      (ts.values.getD (i + 1) 0) hr0 hr1
    rw [mul_div_assoc]
    exact hb

/-- Witness for C10 at the concrete test series, linear policy, first gap,
interior point 08:30 (value -25 between -30 and -20). -/
theorem fill_interior_in_range_witness :
    min (linearExample.values.getD 0 0) (linearExample.values.getD 1 0) ≤
        linearExampleOutput.values.getD (cumOffset (roundedOf linearExample) 0 + 1) 0 ∧
      linearExampleOutput.values.getD (cumOffset (roundedOf linearExample) 0 + 1) 0 ≤
        max (linearExample.values.getD 0 0) (linearExample.values.getD 1 0) :=
  fill_interior_in_range linearExample .LINEAR linearExampleOutput
    valid_linearExample fill_linearExample 0 1
    (by rw [roundedOf_linearExample]; norm_num) le_rfl
    (by rw [roundedOf_linearExample]; decide)

/-! Concrete material for the batch-processing claim. -/

/-- A failing series: the 37-minute gap against the detected 30-minute step
deviates by 7/30, far beyond the tolerance, so `fill` returns the failure
value. -/
def failingSeriesA : TimeSeriesVariableResolution :=
  { indexes := [0, 30, 67], values := [1, 2, 3], ignore_year := false,
    repeats := false, index_name := "" }

/-- A second failing series, distinct from `failingSeriesA`. -/
def failingSeriesB : TimeSeriesVariableResolution :=
  { indexes := [0, 30, 97], values := [4, 5, 6], ignore_year := false,
    repeats := false, index_name := "" }

lemma fill_failingSeriesA (m : Interpolation) :
    fill failingSeriesA m = .ok none := by
  have h1 : ¬(diffsOf failingSeriesA).isEmpty := by
    norm_num [diffsOf, npdiff, failingSeriesA]
  have h2 : gridTolerance < maxAbsDevOf failingSeriesA := by
    norm_num [maxAbsDevOf, roundedOf, fractionalOf, stepOf, diffsOf, npdiff,
      failingSeriesA, rint, gridTolerance, List.min?_cons', List.max?_cons',
      List.foldl, min_def, max_def]
    rw [show |(7 : ℚ)/30| = 7/30 from abs_of_nonneg (by norm_num)]
    norm_num
  unfold fill
  rw [if_neg h1, if_pos h2]

lemma fill_failingSeriesB (m : Interpolation) :
    fill failingSeriesB m = .ok none := by
  have h1 : ¬(diffsOf failingSeriesB).isEmpty := by
    norm_num [diffsOf, npdiff, failingSeriesB]
  have h2 : gridTolerance < maxAbsDevOf failingSeriesB := by
    norm_num [maxAbsDevOf, roundedOf, fractionalOf, stepOf, diffsOf, npdiff,
      failingSeriesB, rint, gridTolerance, List.min?_cons', List.max?_cons',
      List.foldl, min_def, max_def]
    rw [show |(7 : ℚ)/30| = 7/30 from abs_of_nonneg (by norm_num)]
    norm_num
  unfold fill
  rw [if_neg h1, if_pos h2]

lemma process_database_nil (m : Interpolation) :
    process_database [] m = .ok ([], []) := rfl

/-- One step of the `process_database` loop on a time-series row that
decodes to a variable resolution series. -/
lemma process_database_cons_ts (n : ℕ) (ts : TimeSeriesVariableResolution)
    (rest : List ValueRow) (m : Interpolation) :
    process_database
        (⟨n, "time_series", .timeSeriesVariable ts⟩ :: rest) m =
      if ts.indexes.length < 3 then process_database rest m
      else
        match fill ts m with
        | .error e => .error e
        | .ok none =>
          (process_database rest m).map
            (fun p => (p.1, fillFailureMessage :: p.2))
        | .ok (some nts) =>
          (process_database rest m).map
            (fun p => (⟨n, nts, "time_series"⟩ :: p.1, p.2)) := by
  rfl

/-- One step of the `process_database` loop on an eligible row whose fill
returns the failure value: a fixed diagnostic line is emitted and the row
contributes nothing to the update list. -/
lemma process_database_failing_step (n : ℕ) (rest : List ValueRow)
    (m : Interpolation) (ts : TimeSeriesVariableResolution)
    (h3 : 3 ≤ ts.indexes.length) (h4 : fill ts m = .ok none) :
    process_database (⟨n, "time_series", .timeSeriesVariable ts⟩ :: rest) m
      = (process_database rest m).map
          (fun p => (p.1, fillFailureMessage :: p.2)) := by
  rw [process_database_cons_ts, if_neg (by omega), h4]

/-- C8 counterexample: two distinct failing series produce bitwise
identical log lines (the diagnostic is a fixed string), so the diagnostic
cannot name the offending series; both rows are excluded and the batch
completes. -/
theorem process_database_log_counterexample :
    process_database
        [⟨1, "time_series", .timeSeriesVariable failingSeriesA⟩,
          ⟨2, "time_series", .timeSeriesVariable failingSeriesB⟩] .LINEAR
      = .ok ([], [fillFailureMessage, fillFailureMessage]) ∧
      failingSeriesA ≠ failingSeriesB := by
  constructor
  · rw [process_database_failing_step 1 _ .LINEAR failingSeriesA
        (by norm_num [failingSeriesA]) (fill_failingSeriesA .LINEAR),
      process_database_failing_step 2 _ .LINEAR failingSeriesB
        (by norm_num [failingSeriesB]) (fill_failingSeriesB .LINEAR),
      process_database_nil]
    rfl
  · intro hAB
    have := congrArg (fun s => s.values) hAB
    norm_num [failingSeriesA, failingSeriesB] at this

/-- C8 amended: when `fill` fails on an eligible series during batch
processing, `process_database` emits one fixed diagnostic line (which does
not identify the series), excludes that series from the returned update
list, and continues with the remaining rows: the updates are exactly those
of the remaining rows and no single failure aborts the batch. -/
theorem process_database_skips_failed (n : ℕ) (rest : List ValueRow)
    (m : Interpolation) (ts : TimeSeriesVariableResolution)
    (h3 : 3 ≤ ts.indexes.length) (h4 : fill ts m = .ok none)
    (u : List UpdateItem) (logs : List String)
    (h5 : process_database rest m = .ok (u, logs)) :
    process_database (⟨n, "time_series", .timeSeriesVariable ts⟩ :: rest) m
      = .ok (u, fillFailureMessage :: logs) := by
  rw [process_database_failing_step n rest m ts h3 h4, h5]
  rfl

/-- Witness for C8 (amended) with one failing row followed by an empty
remainder. -/
theorem process_database_skips_failed_witness :
    process_database
        [⟨7, "time_series", .timeSeriesVariable failingSeriesA⟩] .LINEAR
      = .ok ([], [fillFailureMessage]) :=
  process_database_skips_failed 7 [] .LINEAR failingSeriesA
    (by norm_num [failingSeriesA]) (fill_failingSeriesA .LINEAR) [] []
    (process_database_nil .LINEAR)

end InterpolateMissingValues
